import Mathlib

/-!
Verification of the MANormalizingFlows repository (src/MANormalizingFlows.py),
a masked autoregressive normalizing flow (MAF):

* `MADE` layers: dense layers whose kernels are elementwise-multiplied by fixed
  binary masks derived from per-unit integer order assignments (`MADE.build`,
  lines 57-126).
* `MAFlowModel`: a stack of coupling layers, each producing a log-scale `s`
  (tanh output activation) and shift `t` (linear output activation), with fixed
  permutations between layers (`MAFlowModel.call`, lines 237-258).
* `MAConditionalFlowModel`: same, with `n_params` conditioning inputs prepended
  to every vector, masked out of the affine update by a left-zero padding
  matrix, plus histogram CDFs and inverse transform sampling
  (lines 359-498).

Machine floats are idealized as exact real arithmetic (the integer-valued mask
algebra is over the naturals and fully computable).
-/

namespace MANF

/-! ## MADE masks (MADE.build, src lines 85-126)

`nums` models `self.nums` AFTER the conditioning shift of lines 67-70 (a zero
column is prepended when `n_params > 0` and `n_params` is added throughout);
the mask formulas below take `nums` exactly as the source uses it.  `nums l k`
is the order assignment of hidden unit `k` in hidden layer `l`; `P` is
`n_params`, `L` is `num_layers`, `H` is the hidden width (`num_nodes + x`).
Input positions `p` and output positions `d` are 0-indexed here; the source
compares against 1-indexed `d`, hence the `p + 1` / `d + 1` below. -/

/-- Input-to-first-hidden mask (source lines 85-88, transposed to
[input, hidden unit]): 1 iff `nums[0,k] >= d` for 1-indexed input position
`d = p+1`. -/
def inMask (nums : ℕ → ℕ → ℕ) (p k : ℕ) : ℕ :=
  if p + 1 ≤ nums 0 k then 1 else 0

/-- Hidden-to-hidden mask between hidden layers `l` and `l+1` (source lines
104-107 with code layer index `l+1`, transposed to [unit j of layer l, unit k
of layer l+1]): 1 iff `nums[l+1,k] >= nums[l,j]`. -/
def hidMask (nums : ℕ → ℕ → ℕ) (l j k : ℕ) : ℕ :=
  if nums l j ≤ nums (l + 1) k then 1 else 0

/-- Last-hidden-to-output mask (source lines 122-126, transposed to
[hidden unit, output]): 1 iff `nums[L-1,k] < d + n_params` for 1-indexed output
position `d = d0+1`. -/
def outMask (P L : ℕ) (nums : ℕ → ℕ → ℕ) (k d : ℕ) : ℕ :=
  if nums (L - 1) k < d + 1 + P then 1 else 0

/-- Entry `(p, k)` of the product of the input mask with the first `l`
hidden-to-hidden masks: the number of unmasked paths from input position `p`
to unit `k` of hidden layer `l`. -/
def chainE (H : ℕ) (nums : ℕ → ℕ → ℕ) : ℕ → ℕ → ℕ → ℕ
  | 0, p, k => inMask nums p k
  | l + 1, p, k => ∑ j ∈ Finset.range H, chainE H nums l p j * hidMask nums l j k

/-- Entry `(p, d)` of the product of all `L+1` masks: the number of unmasked
paths from input position `p` to output position `d` through the whole
network. -/
def influence (P L H : ℕ) (nums : ℕ → ℕ → ℕ) (p d : ℕ) : ℕ :=
  ∑ k ∈ Finset.range H, chainE H nums (L - 1) p k * outMask P L nums k d

lemma hidMask_ne_zero {nums : ℕ → ℕ → ℕ} {l j k : ℕ}
    (h : hidMask nums l j k ≠ 0) : nums l j ≤ nums (l + 1) k := by
  by_contra hc
  exact h (if_neg hc)

lemma inMask_ne_zero {nums : ℕ → ℕ → ℕ} {p k : ℕ}
    (h : inMask nums p k ≠ 0) : p + 1 ≤ nums 0 k := by
  by_contra hc
  exact h (if_neg hc)

lemma outMask_ne_zero {P L : ℕ} {nums : ℕ → ℕ → ℕ} {k d : ℕ}
    (h : outMask P L nums k d ≠ 0) : nums (L - 1) k < d + 1 + P := by
  by_contra hc
  exact h (if_neg hc)

/-- Any unmasked path from input `p` into hidden layer `l` ends at a unit whose
order assignment is at least `p + 1`. -/
lemma chainE_bound {H : ℕ} {nums : ℕ → ℕ → ℕ} :
    ∀ {l p k : ℕ}, chainE H nums l p k ≠ 0 → p + 1 ≤ nums l k := by
  intro l
  induction l with
  | zero => exact fun h => inMask_ne_zero h
  | succ l ih =>
    intro p k h
    have hex : ∃ j ∈ Finset.range H, chainE H nums l p j * hidMask nums l j k ≠ 0 := by
      by_contra hall
      push_neg at hall
      exact h (Finset.sum_eq_zero hall)
    obtain ⟨j, _, hj⟩ := hex
    rcases Nat.mul_ne_zero_iff.mp hj with ⟨hcj, hmj⟩
    exact le_trans (ih hcj) (hidMask_ne_zero hmj)

/-- Mask-product triangularity: the composite of all masks carries no
influence from input position `p` to output position `d` whenever the
autoregressive position of `p` (i.e. `p - P`) is at least `d`. -/
lemma influence_eq_zero {P L H : ℕ} {nums : ℕ → ℕ → ℕ} {p d : ℕ}
    (h : d + P ≤ p) : influence P L H nums p d = 0 := by
  rw [influence]
  apply Finset.sum_eq_zero
  intro k _
  rcases Nat.eq_zero_or_pos (chainE H nums (L - 1) p k) with hc | hc
  · rw [hc, Nat.zero_mul]
  · have hb : p + 1 ≤ nums (L - 1) k := chainE_bound (Nat.pos_iff_ne_zero.mp hc)
    have : outMask P L nums k d = 0 := by
      rw [outMask, if_neg]
      omega
    rw [this, Nat.mul_zero]

/-- C2: for every constructed MADE network (any data dimensionality `D ≥ 2`,
hidden layer count `L ≥ 1`, hidden width `H`, conditioning count `P ≥ 0`, any
order assignments `nums`) and every output position `d`, the product of the
`L+1` binary masks assigns zero influence to output `d` from every input
position `p` whose autoregressive position (after the conditioning offset,
`p - P`) is at least `d`: the mask product is strictly lower-triangular on the
data block. -/
theorem c2_mask_triangularity (D P L H : ℕ) (nums : ℕ → ℕ → ℕ)
    (_hD : 2 ≤ D) (_hL : 1 ≤ L) (d p : ℕ) (_hd : d < D) (_hp : p < P + D)
    (h : d + P ≤ p) : influence P L H nums p d = 0 :=
  influence_eq_zero h

/-- Witness for C2 at a concrete network: `D = 2`, `P = 0`, `L = 1`, `H = 2`,
all order assignments 1, output `d = 1`, input `p = 1`. -/
theorem c2_witness :
    (2 ≤ 2 ∧ 1 ≤ 1 ∧ 1 < 2 ∧ 1 < 0 + 2 ∧ 1 + 0 ≤ 1) ∧
      influence 0 1 2 (fun _ _ => 1) 1 1 = 0 :=
  ⟨by omega,
    c2_mask_triangularity 2 0 1 2 (fun _ _ => 1) (by omega) (by omega) 1 1
      (by omega) (by omega) (by omega)⟩

/-! ## MADE forward evaluation over exact reals (MADE.call, src lines 128-139)

A built MADE layer: `W` is the realized input width (the build-time check at
line 58 demands `W = in_shape + n_params`, recorded as the field `hW`), `D` is
`in_shape`, `P` is `n_params`, `L ≥ 1` hidden layers of width `H`, with one
kernel and bias per affine layer.  Kernels and biases are arbitrary fixed
reals (the claims quantify over all trained weights); masks are the fixed
functions of `nums` defined above, applied fresh on every call exactly as
`tf.multiply(self.masks[i], self.kernels[i])` does. -/

structure MADENet (W D P : ℕ) where
  L : ℕ
  H : ℕ
  hL : 1 ≤ L
  hW : W = P + D
  nums : ℕ → ℕ → ℕ
  kIn : Fin W → Fin H → ℝ
  bIn : Fin H → ℝ
  kHid : ℕ → Fin H → Fin H → ℝ
  bHid : ℕ → Fin H → ℝ
  kOut : Fin H → Fin D → ℝ
  bOut : Fin D → ℝ
  activation : String

/-- Output activation dispatch (src lines 133-138): relu, tanh, sigmoid, and
identity for anything else (the linear case applies no transform). -/
noncomputable def actFun : String → ℝ → ℝ
  | "relu" => fun r => max r 0
  | "tanh" => Real.tanh
  | "sigmoid" => fun r => 1 / (1 + Real.exp (-r))
  | _ => fun r => r

/-- Hidden activations (src lines 130-131): layer `l` of the loop applies
`max(matmul(x, mask*kernel) + bias, 0)`; layer 0 consumes the input with the
input mask, layer `l+1` consumes layer `l` with the hidden mask. -/
noncomputable def MADENet.hidden {W D P : ℕ} (net : MADENet W D P)
    (x : Fin W → ℝ) : ℕ → Fin net.H → ℝ
  | 0 => fun k =>
      max ((∑ p, x p * ((inMask net.nums p.val k.val : ℕ) * net.kIn p k)) + net.bIn k) 0
  | l + 1 => fun k =>
      max ((∑ j, net.hidden x l j * ((hidMask net.nums l j.val k.val : ℕ) * net.kHid l j k))
        + net.bHid l k) 0

/-- Full MADE output (src lines 132-139): the final affine layer with the
output mask, then the configured output activation. -/
noncomputable def MADENet.call {W D P : ℕ} (net : MADENet W D P)
    (x : Fin W → ℝ) : Fin D → ℝ :=
  fun d => actFun net.activation
    ((∑ k, net.hidden x (net.L - 1) k
      * ((outMask P net.L net.nums k.val d.val : ℕ) * net.kOut k d)) + net.bOut d)

/-- Hidden unit `k` of layer `l` depends only on input positions with an
unmasked path to it: inputs agreeing wherever `chainE` is nonzero produce the
same activation. -/
lemma MADENet.hidden_congr {W D P : ℕ} (net : MADENet W D P)
    (x y : Fin W → ℝ) :
    ∀ (l : ℕ) (k : Fin net.H),
      (∀ p : Fin W, chainE net.H net.nums l p.val k.val ≠ 0 → x p = y p) →
      net.hidden x l k = net.hidden y l k := by
  intro l
  induction l with
  | zero =>
    intro k h
    have hsum : (∑ p, x p * ((inMask net.nums p.val k.val : ℕ) * net.kIn p k))
        = ∑ p, y p * ((inMask net.nums p.val k.val : ℕ) * net.kIn p k) := by
      apply Finset.sum_congr rfl
      intro p _
      by_cases hm : inMask net.nums p.val k.val = 0
      · rw [hm]
        push_cast
        ring
      · rw [h p hm]
    simp only [MADENet.hidden]
    rw [hsum]
  | succ l ih =>
    intro k h
    have hsum : (∑ j, net.hidden x l j * ((hidMask net.nums l j.val k.val : ℕ) * net.kHid l j k))
        = ∑ j, net.hidden y l j * ((hidMask net.nums l j.val k.val : ℕ) * net.kHid l j k) := by
      apply Finset.sum_congr rfl
      intro j _
      by_cases hm : hidMask net.nums l j.val k.val = 0
      · rw [hm]
        push_cast
        ring
      · have hdep : ∀ p : Fin W, chainE net.H net.nums l p.val j.val ≠ 0 → x p = y p := by
          intro p hc
          apply h p
          rw [chainE]
          intro hzero
          rw [Finset.sum_eq_zero_iff] at hzero
          have := hzero j.val (Finset.mem_range.mpr j.isLt)
          exact Nat.mul_ne_zero hc hm this
        rw [ih j hdep]
    simp only [MADENet.hidden]
    rw [hsum]

/-- Autoregressive dependency of a built MADE layer: output position `d`
depends only on input positions `p < d + P`.  This is the functional
consequence of the mask triangularity (C2). -/
lemma MADENet.call_congr {W D P : ℕ} (net : MADENet W D P)
    (x y : Fin W → ℝ) (d : Fin D)
    (h : ∀ p : Fin W, p.val < d.val + P → x p = y p) :
    net.call x d = net.call y d := by
  have hsum : (∑ k, net.hidden x (net.L - 1) k
      * ((outMask P net.L net.nums k.val d.val : ℕ) * net.kOut k d))
      = ∑ k, net.hidden y (net.L - 1) k
      * ((outMask P net.L net.nums k.val d.val : ℕ) * net.kOut k d) := by
    apply Finset.sum_congr rfl
    intro k _
    by_cases hm : outMask P net.L net.nums k.val d.val = 0
    · rw [hm]
      push_cast
      ring
    · have hdep : ∀ p : Fin W, chainE net.H net.nums (net.L - 1) p.val k.val ≠ 0 → x p = y p := by
        intro p hc
        apply h p
        have h1 : p.val + 1 ≤ net.nums (net.L - 1) k.val := chainE_bound hc
        have h2 : net.nums (net.L - 1) k.val < d.val + 1 + P := outMask_ne_zero hm
        omega
      rw [net.hidden_congr x y (net.L - 1) k hdep]
  rw [MADENet.call, MADENet.call, hsum]

/-! ## MAFlowModel (src lines 187-308)

The flow model holds `N = n_coupling` coupling layers.  Each coupling layer
(built by `MACoupling`, lines 144-185) is a pair of MADE networks over the
same input: the log-scale network (output activation tanh) and the shift
network (output activation linear) — see line 223,
`activations=["tanh", "linear"]`.  The permutations between layers are valid
permutations of `[0, D)` (generated by `rng.permutation(in_shape)` at line
230, or supplied as such); in the inverse direction the source applies
`np.argsort(perm)`, which for a valid permutation array is exactly the
inverse permutation, so the table is modelled as `Equiv.Perm (Fin D)`. -/

/-- Feature reordering `tf.gather(x, perm, axis=-1)` (src line 257):
entry `j` of the result is entry `perm[j]` of `x`. -/
def gather {n : ℕ} (x : Fin n → ℝ) (p : Fin n → Fin n) : Fin n → ℝ :=
  fun j => x (p j)

structure MAFlow (D : ℕ) where
  N : ℕ
  sNet : ℕ → MADENet D D 0
  tNet : ℕ → MADENet D D 0
  perms : ℕ → Equiv.Perm (Fin D)
  hS : ∀ i, (sNet i).activation = "tanh"
  hT : ∀ i, (tNet i).activation = "linear"

/-- One forward coupling update (src lines 243-244):
`x = x * tf.exp(s) + t` with `s, t = layers_list[i](x)`. -/
noncomputable def MAFlow.fstep {D : ℕ} (m : MAFlow D) (i : ℕ)
    (x : Fin D → ℝ) : Fin D → ℝ :=
  fun d => x d * Real.exp ((m.sNet i).call x d) + (m.tNet i).call x d

/-- Forward loop over the listed coupling-layer indices (src lines 241-257,
`training=True` branch): affine update, log-det accumulation
`log_det += tf.reduce_sum(s)`, then the permutation unless `i = N-1`. -/
noncomputable def MAFlow.fwd {D : ℕ} (m : MAFlow D) :
    List ℕ → ((Fin D → ℝ) × ℝ) → ((Fin D → ℝ) × ℝ)
  | [], st => st
  | i :: rest, st =>
      let x1 := m.fstep i st.1
      let ld1 := st.2 + ∑ d, (m.sNet i).call st.1 d
      let x2 := if i ≠ m.N - 1 then gather x1 (m.perms i) else x1
      m.fwd rest (x2, ld1)

/-- One iteration of the inverse per-feature loop (src lines 248-251):
recompute `s, t` on the whole current vector, then update only feature `k`:
`x = x * inv_mask + (tf.exp(-s) * (x - t)) * mask`. -/
noncomputable def MAFlow.invFeat {D : ℕ} (m : MAFlow D) (i k : ℕ)
    (x : Fin D → ℝ) : Fin D → ℝ :=
  fun j => if j.val = k then
      Real.exp (-((m.sNet i).call x j)) * (x j - (m.tNet i).call x j)
    else x j

/-- The inverse per-feature loop over the listed feature indices
(src line 247, `for k in range(self.in_shape)`). -/
noncomputable def MAFlow.invLoop {D : ℕ} (m : MAFlow D) (i : ℕ) :
    List ℕ → (Fin D → ℝ) → (Fin D → ℝ)
  | [], x => x
  | k :: rest, x => m.invLoop i rest (m.invFeat i k x)

/-- Backward loop over the listed (already reversed) coupling-layer indices
(src lines 241-257, `training=False` branch): per-feature inversion, then the
inverse permutation `np.argsort(permutations[i-1])` unless `i = 0`. -/
noncomputable def MAFlow.bwd {D : ℕ} (m : MAFlow D) :
    List ℕ → (Fin D → ℝ) → (Fin D → ℝ)
  | [], x => x
  | i :: rest, x =>
      let x1 := m.invLoop i (List.range D) x
      let x2 := if i ≠ 0 then gather x1 (m.perms (i - 1)).symm else x1
      m.bwd rest x2

/-- MAFlowModel.call (src lines 237-258): forward over `range(N)` when
`training`, else the inverse over `range(N)[::-1]`; `log_det` stays 0 in the
inverse direction. -/
noncomputable def MAFlow.call {D : ℕ} (m : MAFlow D) (x : Fin D → ℝ)
    (training : Bool) : (Fin D → ℝ) × ℝ :=
  if training then m.fwd (List.range m.N) (x, 0)
  else (m.bwd (List.range m.N).reverse x, 0)

lemma MAFlow.fwd_append {D : ℕ} (m : MAFlow D) (l1 l2 : List ℕ)
    (st : (Fin D → ℝ) × ℝ) : m.fwd (l1 ++ l2) st = m.fwd l2 (m.fwd l1 st) := by
  induction l1 generalizing st with
  | nil => rfl
  | cons i rest ih =>
    simp only [List.cons_append, MAFlow.fwd]
    exact ih _

lemma MAFlow.bwd_append {D : ℕ} (m : MAFlow D) (l1 l2 : List ℕ)
    (x : Fin D → ℝ) : m.bwd (l1 ++ l2) x = m.bwd l2 (m.bwd l1 x) := by
  induction l1 generalizing x with
  | nil => rfl
  | cons i rest ih =>
    simp only [List.cons_append, MAFlow.bwd]
    exact ih _

lemma gather_gather_symm {n : ℕ} (x : Fin n → ℝ) (p : Equiv.Perm (Fin n)) :
    gather (gather x p) p.symm = x := by
  funext j
  simp [gather]

/-- Invariant step for the inverse per-feature loop of one coupling layer: if
the current vector agrees with the true preimage `x` below `k` and with the
forward image `fstep i x` from `k` on, running the loop over features
`k, k+1, ..., D-1` recovers `x` exactly. -/
lemma MAFlow.invLoop_fstep {D : ℕ} (m : MAFlow D) (i : ℕ) (x : Fin D → ℝ) :
    ∀ (cnt k : ℕ), k + cnt = D →
    ∀ c : Fin D → ℝ,
      (∀ j : Fin D, j.val < k → c j = x j) →
      (∀ j : Fin D, k ≤ j.val → c j = m.fstep i x j) →
      m.invLoop i (List.range' k cnt) c = x := by
  intro cnt
  induction cnt with
  | zero =>
    intro k hk c hlo _
    funext j
    exact hlo j (by omega)
  | succ cnt ih =>
    intro k hk c hlo hhi
    rw [List.range'_succ, MAFlow.invLoop]
    apply ih (k + 1) (by omega)
    · intro j hj
      rcases Nat.lt_or_ge j.val k with hjk | hjk
      · rw [MAFlow.invFeat, if_neg (by omega)]
        exact hlo j hjk
      · have hjeq : j.val = k := by omega
        rw [MAFlow.invFeat, if_pos hjeq]
        have hs : (m.sNet i).call c j = (m.sNet i).call x j := by
          apply MADENet.call_congr
          intro p hp
          exact hlo p (by omega)
        have ht : (m.tNet i).call c j = (m.tNet i).call x j := by
          apply MADENet.call_congr
          intro p hp
          exact hlo p (by omega)
        rw [hs, ht, hhi j (by omega), MAFlow.fstep]
        have hexp := Real.exp_ne_zero ((m.sNet i).call x j)
        field_simp [Real.exp_neg]
    · intro j hj
      rw [MAFlow.invFeat, if_neg (by omega)]
      exact hhi j (by omega)

/-- The full inverse per-feature loop undoes one forward coupling update. -/
lemma MAFlow.invLoop_range {D : ℕ} (m : MAFlow D) (i : ℕ) (x : Fin D → ℝ) :
    m.invLoop i (List.range D) (m.fstep i x) = x := by
  rw [List.range_eq_range']
  exact m.invLoop_fstep i x D 0 (by omega) (m.fstep i x)
    (fun j hj => absurd hj (Nat.not_lt_zero _)) (fun j _ => rfl)

/-- Telescoping inversion: running the backward loop over the reversed suffix
`range' n cnt` of layers undoes the forward loop over that suffix, up to the
single dangling permutation `perms (n-1)` that the forward pass of the
preceding layer would have applied. -/
lemma MAFlow.bwd_fwd {D : ℕ} (m : MAFlow D) :
    ∀ (c n : ℕ), n + (c + 1) = m.N → ∀ (x : Fin D → ℝ) (ld : ℝ),
      m.bwd (List.range' n (c + 1)).reverse ((m.fwd (List.range' n (c + 1)) (x, ld)).1) =
        (if n = 0 then x else gather x (m.perms (n - 1)).symm) := by
  intro c
  induction c with
  | zero =>
    intro n hn x ld
    have hguard : ¬(n ≠ m.N - 1) := by omega
    simp only [List.range'_one, List.reverse_singleton, MAFlow.fwd, if_neg hguard,
      MAFlow.bwd, m.invLoop_range]
    by_cases h : n = 0
    · simp [h]
    · simp [h]
  | succ c ih =>
    intro n hn x ld
    have hguard : n ≠ m.N - 1 := by omega
    rw [List.range'_succ, List.reverse_cons, MAFlow.bwd_append]
    have hfwd : m.fwd (n :: List.range' (n + 1) (c + 1)) (x, ld)
        = m.fwd (List.range' (n + 1) (c + 1))
            (gather (m.fstep n x) (m.perms n), ld + ∑ d, (m.sNet n).call x d) := by
      simp only [MAFlow.fwd, if_pos hguard]
    rw [hfwd, ih (n + 1) (by omega), if_neg (by omega)]
    simp only [Nat.add_sub_cancel]
    rw [gather_gather_symm]
    simp only [MAFlow.bwd, m.invLoop_range]
    by_cases h : n = 0
    · simp [h]
    · simp [h]

/-- Full-model round trip: the inverse call undoes the forward call exactly. -/
lemma MAFlow.roundtrip {D : ℕ} (m : MAFlow D) (x : Fin D → ℝ) :
    (m.call ((m.call x true).1) false).1 = x := by
  simp only [MAFlow.call, if_pos, if_neg, Bool.true_eq_false, not_false_iff, ite_true, ite_false]
  rcases Nat.eq_zero_or_pos m.N with h0 | hpos
  · rw [h0]
    rfl
  · obtain ⟨c, hc⟩ : ∃ c, c + 1 = m.N := ⟨m.N - 1, by omega⟩
    rw [List.range_eq_range', ← hc]
    have := m.bwd_fwd c 0 (by omega) x 0
    rw [if_pos rfl] at this
    exact this

/-- C1: for every MAFlowModel with fixed built weights, masks and permutations
and every input vector `x`, running the forward transform (`call` with
`training = True`, discarding `log_det`) and then the inverse transform
(`call` with `training = False`) returns `x` exactly, over exact real
arithmetic. -/
theorem c1_forward_inverse_roundtrip :
    ∀ (D : ℕ) (m : MAFlow D) (x : Fin D → ℝ),
      (m.call ((m.call x true).1) false).1 = x :=
  fun _ m x => m.roundtrip x

/-! ## Concrete scenario for C8 -/

/-- A built MADE layer all of whose kernels and biases are zero (an
identity-like weight setting producing output `actFun act 0` everywhere). -/
noncomputable def zeroNet (W D P : ℕ) (hW : W = P + D) (act : String) :
    MADENet W D P where
  L := 1
  H := 1
  hL := le_refl 1
  hW := hW
  nums := fun _ _ => 1
  kIn := fun _ _ => 0
  bIn := fun _ => 0
  kHid := fun _ _ _ => 0
  bHid := fun _ _ => 0
  kOut := fun _ _ => 0
  bOut := fun _ => 0
  activation := act

lemma zeroNet_call {W D P : ℕ} (hW : W = P + D) (act : String)
    (x : Fin W → ℝ) (d : Fin D) :
    (zeroNet W D P hW act).call x d = actFun act 0 := by
  simp [MADENet.call, zeroNet]

lemma actFun_tanh_zero : actFun "tanh" 0 = 0 := Real.tanh_zero

lemma actFun_linear (r : ℝ) : actFun "linear" r = r := rfl

/-- The permutation `[2, 0, 1]` of the concrete scenario: `gather` along it
sends `x` to `[x 2, x 0, x 1]`. -/
def p8 : Equiv.Perm (Fin 3) :=
  ⟨![2, 0, 1], ![1, 2, 0], by decide, by decide⟩

/-- The concrete scenario model: `D = 3`, `N = 2` coupling layers with all
kernels and biases zero (so `s = tanh 0 = 0` and `t = 0`), and the single
permutation `[2, 0, 1]` between the two layers. -/
noncomputable def m8 : MAFlow 3 where
  N := 2
  sNet := fun _ => zeroNet 3 3 0 rfl "tanh"
  tNet := fun _ => zeroNet 3 3 0 rfl "linear"
  perms := fun _ => p8
  hS := fun _ => rfl
  hT := fun _ => rfl

lemma m8_sNet_call (x : Fin 3 → ℝ) (i : ℕ) (d : Fin 3) :
    (m8.sNet i).call x d = 0 := by
  rw [show m8.sNet i = zeroNet 3 3 0 rfl "tanh" from rfl, zeroNet_call]
  exact actFun_tanh_zero

lemma m8_tNet_call (x : Fin 3 → ℝ) (i : ℕ) (d : Fin 3) :
    (m8.tNet i).call x d = 0 := by
  rw [show m8.tNet i = zeroNet 3 3 0 rfl "linear" from rfl, zeroNet_call]
  exact actFun_linear 0

lemma m8_fstep (i : ℕ) (x : Fin 3 → ℝ) : m8.fstep i x = x := by
  funext d
  rw [MAFlow.fstep, m8_sNet_call, m8_tNet_call, Real.exp_zero]
  ring

lemma m8_forward (x : Fin 3 → ℝ) : m8.call x true = (gather x p8, 0) := by
  have hrange : List.range 2 = [0, 1] := rfl
  rw [MAFlow.call, if_pos rfl, show m8.N = 2 from rfl, hrange]
  simp only [MAFlow.fwd, m8_fstep, m8_sNet_call, Finset.sum_const_zero, add_zero,
    show m8.N = 2 from rfl]
  norm_num
  rfl

/-- C8: for the model with `D = 3`, two coupling layers whose weights make
`s = 0` and `t = 0`, and permutation `[2,0,1]` between them, the forward pass
maps `x` to `([x 2, x 0, x 1], 0)` (pure permutation, zero log-determinant)
and the inverse pass applied to the forward output returns `x` exactly. -/
theorem c8_concrete_scenario (x : Fin 3 → ℝ) :
    ((m8.call x true).1 0 = x 2 ∧ (m8.call x true).1 1 = x 0 ∧
      (m8.call x true).1 2 = x 1) ∧
    (m8.call x true).2 = 0 ∧
    (m8.call ((m8.call x true).1) false).1 = x := by
  refine ⟨⟨?_, ?_, ?_⟩, ?_, m8.roundtrip x⟩ <;> rw [m8_forward]
  · exact congrArg x (by decide : p8 0 = 2)
  · exact congrArg x (by decide : p8 1 = 0)
  · exact congrArg x (by decide : p8 2 = 1)

/-! ## MAConditionalFlowModel (src lines 359-498)

Vectors carry the `P = n_params` conditioning parameters in the first `P`
slots, then the `D = in_shape` data features.  The per-layer `s` and `t`
outputs have width `D`; `tf.matmul(s, left_zero_matrix)` with
`left_zero_matrix = [0 | I]` (line 405) pads them to width `P + D` with zeros
on the parameter slots.  Between coupling layers the permutation applied is
`concat([arange(P), perm + P])` (line 434): identity on the parameter block,
the data permutation shifted onto the data block; in the inverse direction
`perm` is first replaced by `argsort(perm)`, the inverse permutation. -/

/-- Padding of a width-`D` row vector to width `P + D` by
`tf.matmul(s, left_zero_matrix)` (src lines 405, 414-415, 421-422): zero on
the `P` parameter slots, the original entries on the data slots. -/
noncomputable def leftZeroPad (P D : ℕ) (s : Fin D → ℝ) : Fin (P + D) → ℝ :=
  fun j => if h : j.val < P then 0 else s ⟨j.val - P, by omega⟩

/-- The block permutation `concat([arange(P), perm + P])` of src line 434,
as an index map on `Fin (P + D)`. -/
def condPerm (P D : ℕ) (p : Fin D → Fin D) : Fin (P + D) → Fin (P + D) :=
  fun j => if h : j.val < P then j
    else ⟨P + (p ⟨j.val - P, by omega⟩).val, by omega⟩

structure MACondFlow (D P : ℕ) where
  N : ℕ
  sNet : ℕ → MADENet (P + D) D P
  tNet : ℕ → MADENet (P + D) D P
  perms : ℕ → Equiv.Perm (Fin D)
  hP : 1 ≤ P
  hS : ∀ i, (sNet i).activation = "tanh"
  hT : ∀ i, (tNet i).activation = "linear"

/-- One forward conditional coupling update (src lines 413-416): pad `s` and
`t` with the left-zero matrix, then `x = x * tf.exp(s) + t`. -/
noncomputable def MACondFlow.fstep {D P : ℕ} (m : MACondFlow D P) (i : ℕ)
    (x : Fin (P + D) → ℝ) : Fin (P + D) → ℝ :=
  fun j => x j * Real.exp (leftZeroPad P D ((m.sNet i).call x) j)
    + leftZeroPad P D ((m.tNet i).call x) j

/-- Forward loop of the conditional call (src lines 411-435,
`training=True` branch). -/
noncomputable def MACondFlow.fwd {D P : ℕ} (m : MACondFlow D P) :
    List ℕ → ((Fin (P + D) → ℝ) × ℝ) → ((Fin (P + D) → ℝ) × ℝ)
  | [], st => st
  | i :: rest, st =>
      let x1 := m.fstep i st.1
      let ld1 := st.2 + ∑ j, leftZeroPad P D ((m.sNet i).call st.1) j
      let x2 := if i ≠ m.N - 1 then gather x1 (condPerm P D (m.perms i)) else x1
      m.fwd rest (x2, ld1)

/-- One iteration of the conditional inverse per-feature loop (src lines
419-427): the mask selects only position `k + n_params`. -/
noncomputable def MACondFlow.invFeat {D P : ℕ} (m : MACondFlow D P) (i k : ℕ)
    (x : Fin (P + D) → ℝ) : Fin (P + D) → ℝ :=
  fun j => if j.val = k + P then
      Real.exp (-(leftZeroPad P D ((m.sNet i).call x) j))
        * (x j - leftZeroPad P D ((m.tNet i).call x) j)
    else x j

/-- The conditional inverse per-feature loop over the listed data-feature
indices (src line 419, `for k in range(self.in_shape)`). -/
noncomputable def MACondFlow.invLoop {D P : ℕ} (m : MACondFlow D P) (i : ℕ) :
    List ℕ → (Fin (P + D) → ℝ) → (Fin (P + D) → ℝ)
  | [], x => x
  | k :: rest, x => m.invLoop i rest (m.invFeat i k x)

/-- Backward loop of the conditional call (src lines 411-435,
`training=False` branch); the inverse permutation is
`concat([arange(P), argsort(perm) + P])`. -/
noncomputable def MACondFlow.bwd {D P : ℕ} (m : MACondFlow D P) :
    List ℕ → (Fin (P + D) → ℝ) → (Fin (P + D) → ℝ)
  | [], x => x
  | i :: rest, x =>
      let x1 := m.invLoop i (List.range D) x
      let x2 := if i ≠ 0 then gather x1 (condPerm P D (m.perms (i - 1)).symm) else x1
      m.bwd rest x2

/-- MAConditionalFlowModel.call (src lines 407-436). -/
noncomputable def MACondFlow.call {D P : ℕ} (m : MACondFlow D P)
    (x : Fin (P + D) → ℝ) (training : Bool) : (Fin (P + D) → ℝ) × ℝ :=
  if training then m.fwd (List.range m.N) (x, 0)
  else (m.bwd (List.range m.N).reverse x, 0)

lemma leftZeroPad_param {D P : ℕ} (s : Fin D → ℝ) (j : Fin (P + D))
    (hj : j.val < P) : leftZeroPad P D s j = 0 := dif_pos hj

lemma condPerm_param {D P : ℕ} (p : Fin D → Fin D) (j : Fin (P + D))
    (hj : j.val < P) : condPerm P D p j = j := dif_pos hj

lemma MACondFlow.fstep_param {D P : ℕ} (m : MACondFlow D P) (i : ℕ)
    (x : Fin (P + D) → ℝ) (j : Fin (P + D)) (hj : j.val < P) :
    m.fstep i x j = x j := by
  rw [MACondFlow.fstep, leftZeroPad_param _ _ hj, leftZeroPad_param _ _ hj,
    Real.exp_zero]
  ring

lemma MACondFlow.invFeat_param {D P : ℕ} (m : MACondFlow D P) (i k : ℕ)
    (x : Fin (P + D) → ℝ) (j : Fin (P + D)) (hj : j.val < P) :
    m.invFeat i k x j = x j := by
  rw [MACondFlow.invFeat, if_neg (by omega)]

lemma MACondFlow.invLoop_param {D P : ℕ} (m : MACondFlow D P) (i : ℕ)
    (l : List ℕ) (x : Fin (P + D) → ℝ) (j : Fin (P + D)) (hj : j.val < P) :
    m.invLoop i l x j = x j := by
  induction l generalizing x with
  | nil => rfl
  | cons k rest ih => rw [MACondFlow.invLoop, ih, m.invFeat_param i k x j hj]

lemma MACondFlow.fwd_param {D P : ℕ} (m : MACondFlow D P) (l : List ℕ)
    (st : (Fin (P + D) → ℝ) × ℝ) (j : Fin (P + D)) (hj : j.val < P) :
    (m.fwd l st).1 j = st.1 j := by
  induction l generalizing st with
  | nil => rfl
  | cons i rest ih =>
    rw [MACondFlow.fwd, ih]
    by_cases hg : i ≠ m.N - 1
    · simp only [if_pos hg, gather, condPerm_param _ j hj]
      exact m.fstep_param i st.1 j hj
    · simp only [if_neg hg]
      exact m.fstep_param i st.1 j hj

lemma MACondFlow.bwd_param {D P : ℕ} (m : MACondFlow D P) (l : List ℕ)
    (x : Fin (P + D) → ℝ) (j : Fin (P + D)) (hj : j.val < P) :
    m.bwd l x j = x j := by
  induction l generalizing x with
  | nil => rfl
  | cons i rest ih =>
    rw [MACondFlow.bwd, ih]
    by_cases hg : i ≠ 0
    · simp only [if_pos hg, gather, condPerm_param _ j hj]
      exact m.invLoop_param i (List.range D) x j hj
    · simp only [if_neg hg]
      exact m.invLoop_param i (List.range D) x j hj

/-- C6: for every MAConditionalFlowModel with `P` conditioning parameters and
every input vector of width `P + D`, the first `P` components of the output
of `call` equal the first `P` components of the input, in both the forward
(`training = True`) and inverse (`training = False`) directions: the
left-zero padding forces scale and shift to zero on the parameter slots, the
inverse loop targets only data feature `k + P`, and the block permutations
fix the first `P` positions. -/
theorem c6_params_passthrough (D P : ℕ) (m : MACondFlow D P)
    (x : Fin (P + D) → ℝ) (training : Bool) (j : Fin (P + D))
    (hj : j.val < P) : (m.call x training).1 j = x j := by
  cases training with
  | true => exact m.fwd_param (List.range m.N) (x, 0) j hj
  | false => exact m.bwd_param (List.range m.N).reverse x j hj

/-- The concrete conditional model used for the C4 counterexample and the C6
witness: `P = 1` conditioning parameter, `D = 2` data features, one coupling
layer with zero weights, identity permutation table. -/
noncomputable def mc2 : MACondFlow 2 1 where
  N := 1
  sNet := fun _ => zeroNet 3 2 1 rfl "tanh"
  tNet := fun _ => zeroNet 3 2 1 rfl "linear"
  perms := fun _ => Equiv.refl (Fin 2)
  hP := le_refl 1
  hS := fun _ => rfl
  hT := fun _ => rfl

/-- Witness for C6 at the concrete conditional model `mc2`, parameter slot 0,
forward direction. -/
theorem c6_witness :
    (0 : ℕ) < 1 ∧ (mc2.call (fun _ => 0) true).1 ⟨0, by omega⟩ = 0 :=
  ⟨by omega, c6_params_passthrough 2 1 mc2 (fun _ => 0) true ⟨0, by omega⟩
    (by decide)⟩

/-! ## Sampling (MAFlowModel.sample, src lines 260-271;
MAConditionalFlowModel.sample, src lines 438-457)

The latent Gaussian draws (`self.distribution.sample(n_points)`) are
abstracted as given rows `z i`; for the conditional model the parameter rows
(either supplied or produced by ITS) are given as `params i`.  `sample`
returns the first component of `predict`, i.e. of `call` with
`training=False`; each returned point is materialized as a `List ℝ` so that
its dimensionality is an observable fact rather than a typing convention. -/

/-- One returned sample point of MAFlowModel.sample: the inverse transform of
one latent row (src lines 269-271). -/
noncomputable def MAFlow.sampleRow {D : ℕ} (m : MAFlow D)
    (z : Fin D → ℝ) : List ℝ :=
  List.ofFn ((m.call z false).1)

/-- MAFlowModel.sample over `n` latent rows. -/
noncomputable def MAFlow.sample {D : ℕ} (m : MAFlow D) (n : ℕ)
    (z : Fin n → Fin D → ℝ) : List (List ℝ) :=
  List.ofFn fun i => m.sampleRow (z i)

/-- One returned sample point of MAConditionalFlowModel.sample (src lines
452-457): the parameter row is concatenated before the latent row
(`z = tf.concat([params, z], axis=1)`), and the FULL width-(P+D) output of
`predict` is returned — the parameter columns are not stripped. -/
noncomputable def MACondFlow.sampleRow {D P : ℕ} (m : MACondFlow D P)
    (params : Fin P → ℝ) (z : Fin D → ℝ) : List ℝ :=
  List.ofFn ((m.call (Fin.append params z) false).1)

/-- MAConditionalFlowModel.sample over `n` parameter and latent rows. -/
noncomputable def MACondFlow.sample {D P : ℕ} (m : MACondFlow D P) (n : ℕ)
    (params : Fin n → Fin P → ℝ) (z : Fin n → Fin D → ℝ) : List (List ℝ) :=
  List.ofFn fun i => m.sampleRow (params i) (z i)

/-- C4 counterexample: the claim says the points returned by
MAConditionalFlowModel.sample have dimensionality `D` (the declared
`in_shape`, excluding conditioning parameters).  For the concrete conditional
model `mc2` with `D = 2`, `P = 1`, a returned point has 3 = P + D components,
not 2: the code returns the full `predict` output with the parameter columns
still prepended. -/
theorem c4_counterexample :
    (mc2.sampleRow (fun _ => 0) (fun _ => 0)).length = 3 ∧
      (mc2.sampleRow (fun _ => 0) (fun _ => 0)).length ≠ 2 := by
  constructor
  · rw [MACondFlow.sampleRow, List.length_ofFn]
  · rw [MACondFlow.sampleRow, List.length_ofFn]
    omega

/-- C4 (amended): `sample(n)` returns exactly `n` points for both models;
each point of MAFlowModel.sample has `D` components, while each point of
MAConditionalFlowModel.sample has `P + D` components (the inverse pass
consumes and produces width `P + D`, and the parameter columns are kept in
the returned points). -/
theorem c4_sample_shapes (D P n : ℕ) (m : MAFlow D) (mc : MACondFlow D P)
    (z : Fin n → Fin D → ℝ) (params : Fin n → Fin P → ℝ)
    (zc : Fin n → Fin D → ℝ) :
    ((m.sample n z).length = n ∧
      (m.sample n z).map List.length = List.replicate n D) ∧
    ((mc.sample n params zc).length = n ∧
      (mc.sample n params zc).map List.length = List.replicate n (P + D)) := by
  refine ⟨⟨?_, ?_⟩, ?_, ?_⟩
  · rw [MAFlow.sample, List.length_ofFn]
  · rw [MAFlow.sample, List.map_ofFn]
    have : (List.length ∘ fun i => m.sampleRow (z i)) = fun _ : Fin n => D := by
      funext i
      simp [MAFlow.sampleRow]
    rw [this, List.ofFn_const]
  · rw [MACondFlow.sample, List.length_ofFn]
  · rw [MACondFlow.sample, List.map_ofFn]
    have : (List.length ∘ fun i => mc.sampleRow (params i) (zc i))
        = fun _ : Fin n => P + D := by
      funext i
      simp [MACondFlow.sampleRow]
    rw [this, List.ofFn_const]

/-! ## Histogram CDFs and inverse transform sampling
(MAConditionalFlowModel.__init__, src lines 390-399; ITS, src lines 471-478)

Histogram values and bin edges are modelled over exact rationals.
`np.searchsorted(a, v)` (side="left", a binary search valid on sorted input)
returns the leftmost insertion index of `v`, i.e. the length of the prefix of
entries strictly below `v`; all CDF arrays it is applied to are sorted (built
from non-negative histogram values).  `np.random.rand` draws lie in `[0, 1)`,
so a draw of exactly 0 is possible. -/

/-- Running cumulative sums `np.cumsum` (src line 395), carrying the
accumulator: `cumsum acc [v1, v2, ...] = [acc+v1, acc+v1+v2, ...]`. -/
def cumsum : ℚ → List ℚ → List ℚ
  | _, [] => []
  | acc, v :: r => (acc + v) :: cumsum (acc + v) r

/-- The stored padded CDF of one histogram (src lines 395-397):
prepend a zero to the cumulative sums, append a duplicate of the last entry,
then divide everything by that last entry. -/
def buildCDF (values : List ℚ) : List ℚ :=
  let c := (0 : ℚ) :: cumsum 0 values
  let c2 := c ++ [c.getLastD 0]
  c2.map (fun a => a / c2.getLastD 0)

/-- The stored bin upper edges `hist[1][1:]` (src line 398). -/
def upperEdges (edges : List ℚ) : List ℚ := edges.tail

/-- Model of `np.searchsorted(a, v)` with the default side="left" on a sorted
array: the leftmost insertion index, i.e. the number of leading entries
strictly less than `v`. -/
def searchsorted (a : List ℚ) (v : ℚ) : ℕ :=
  (a.takeWhile (fun x => decide (x < v))).length

/-- Numpy integer indexing `l[i]` including the negative-index convention
`l[-k] = l[len l - k]`. -/
def npGet (l : List ℚ) (i : ℤ) : ℚ :=
  if 0 ≤ i then l.getD i.toNat 0 else l.getD (l.length - (-i).toNat) 0

/-- One inverse-transform-sampling lookup (src lines 474-477): for a uniform
draw `u`, the bin index is `searchsorted(cdf, u) - 1` (as a Python int, so
possibly -1) and the returned value is the bin upper edge at that index. -/
def ITS1 (cdf edges : List ℚ) (u : ℚ) : ℚ :=
  npGet edges ((searchsorted cdf u : ℤ) - 1)

/-- C5: for the histogram with values `[1, 1]` and bin edges `[0, 1, 2]`, the
stored padded CDF is `[0, 1/2, 1, 1]`, and ITS with a uniform draw of `0.6`
computes bin index 1 and so selects the upper-edge entry at index 1 — the
second bin's upper edge (the value 2). -/
theorem c5_histogram_scenario :
    buildCDF [1, 1] = [0, 1/2, 1, 1] ∧
    upperEdges [0, 1, 2] = [1, 2] ∧
    (searchsorted (buildCDF [1, 1]) (6/10) : ℤ) - 1 = 1 ∧
    ITS1 (buildCDF [1, 1]) (upperEdges [0, 1, 2]) (6/10) = 2 := by
  have hc : buildCDF [1, 1] = [0, 1/2, 1, 1] := by
    norm_num [buildCDF, cumsum, List.getLastD]
  have hs : searchsorted [0, 1/2, 1, 1] (6/10) = 2 := by
    norm_num [searchsorted, List.takeWhile]
  refine ⟨hc, rfl, ?_, ?_⟩
  · rw [hc, hs]
    decide
  · rw [ITS1, hc, hs]
    norm_num [npGet, upperEdges]

lemma list_sum_nonneg {l : List ℚ} (h : ∀ v ∈ l, 0 ≤ v) : 0 ≤ l.sum := by
  induction l with
  | nil => simp
  | cons v r ih =>
    rw [List.sum_cons]
    have hv := h v (List.mem_cons_self v r)
    have hr := ih fun w hw => h w (List.mem_cons_of_mem v hw)
    linarith

lemma list_sum_pos {l : List ℚ} (h0 : ∀ v ∈ l, 0 ≤ v)
    (h1 : ∃ v ∈ l, 0 < v) : 0 < l.sum := by
  induction l with
  | nil => obtain ⟨v, hv, _⟩ := h1; exact absurd hv (List.not_mem_nil v)
  | cons v r ih =>
    rw [List.sum_cons]
    have hr0 : ∀ w ∈ r, 0 ≤ w := fun w hw => h0 w (List.mem_cons_of_mem v hw)
    obtain ⟨w, hw, hwpos⟩ := h1
    rcases List.mem_cons.mp hw with hwv | hwr
    · have := list_sum_nonneg hr0
      rw [hwv] at hwpos
      linarith
    · have := ih hr0 ⟨w, hwr, hwpos⟩
      have := h0 v (List.mem_cons_self v r)
      linarith

lemma cumsum_getLastD (l : List ℚ) : ∀ acc : ℚ,
    (cumsum acc l).getLastD acc = acc + l.sum := by
  induction l with
  | nil => intro acc; simp [cumsum]
  | cons v r ih =>
    intro acc
    rw [cumsum, List.getLastD_cons, ih (acc + v), List.sum_cons]
    ring

lemma cumsum_chain (l : List ℚ) (h : ∀ v ∈ l, 0 ≤ v) : ∀ acc : ℚ,
    List.Chain' (· ≤ ·) (acc :: cumsum acc l) := by
  induction l with
  | nil => intro acc; simp [cumsum]
  | cons v r ih =>
    intro acc
    rw [cumsum, List.chain'_cons]
    refine ⟨by have := h v (List.mem_cons_self v r); linarith, ?_⟩
    exact ih (fun w hw => h w (List.mem_cons_of_mem v hw)) (acc + v)

lemma buildCDF_eq (values : List ℚ) :
    buildCDF values
      = (((0 : ℚ) :: cumsum 0 values) ++ [((0 : ℚ) :: cumsum 0 values).getLastD 0]).map
          (fun a => a / values.sum) := by
  rw [buildCDF]
  have hlast : (((0 : ℚ) :: cumsum 0 values) ++ [((0 : ℚ) :: cumsum 0 values).getLastD 0]).getLastD 0
      = values.sum := by
    rw [List.getLastD_concat, List.getLastD_cons, cumsum_getLastD, zero_add]
  rw [hlast]

/-- C7: for every conditional model histogram with non-negative values, at
least one of them positive, and consistent lengths, the stored padded CDF is
monotonically non-decreasing, its first entry is 0 and its last entry is 1. -/
theorem c7_cdf_monotone (values edges : List ℚ)
    (_hlen : values.length + 1 = edges.length)
    (h0 : ∀ v ∈ values, 0 ≤ v) (h1 : ∃ v ∈ values, 0 < v) :
    List.Chain' (· ≤ ·) (buildCDF values) ∧
      (buildCDF values).head? = some 0 ∧
      (buildCDF values).getLast? = some 1 := by
  have hT : 0 < values.sum := list_sum_pos h0 h1
  set c : List ℚ := (0 : ℚ) :: cumsum 0 values with hc
  have hclast : c.getLastD 0 = values.sum := by
    rw [hc, List.getLastD_cons, cumsum_getLastD, zero_add]
  refine ⟨?_, ?_, ?_⟩
  · rw [buildCDF_eq, List.chain'_map]
    have hchain2 : List.Chain' (· ≤ ·) (c ++ [c.getLastD 0]) := by
      rw [List.chain'_append]
      refine ⟨cumsum_chain values h0 0, List.chain'_singleton _, ?_⟩
      intro x hx y hy
      have hxv : c.getLastD 0 = x := by
        rw [List.getLastD_eq_getLast?, hx]
        rfl
      have hyv : y = c.getLastD 0 := by
        simp only [List.head?_cons, Option.mem_def, Option.some.injEq] at hy
        exact hy.symm
      rw [hyv, hxv]
    exact List.Chain'.imp
      (fun a b hab => (div_le_div_iff_of_pos_right hT).mpr hab) hchain2
  · rw [buildCDF_eq, ← hc]
    have : c ++ [c.getLastD 0] = 0 :: (cumsum 0 values ++ [c.getLastD 0]) := by
      rw [hc, List.cons_append]
    rw [this, List.map_cons, List.head?_cons, zero_div]
  · rw [buildCDF_eq, ← hc, List.getLast?_map, List.getLast?_concat]
    show some (c.getLastD 0 / values.sum) = some 1
    rw [hclast, div_self (ne_of_gt hT)]

/-- Witness for C7 at the concrete histogram of the spec scenario:
values `[1, 1]`, edges `[0, 1, 2]`. -/
theorem c7_witness :
    (([1, 1] : List ℚ).length + 1 = ([0, 1, 2] : List ℚ).length ∧
      (∀ v ∈ ([1, 1] : List ℚ), 0 ≤ v) ∧ (∃ v ∈ ([1, 1] : List ℚ), 0 < v)) ∧
    (List.Chain' (· ≤ ·) (buildCDF [1, 1]) ∧
      (buildCDF [1, 1]).head? = some 0 ∧
      (buildCDF [1, 1]).getLast? = some 1) :=
  ⟨⟨rfl, by norm_num, by norm_num⟩,
    c7_cdf_monotone [1, 1] [0, 1, 2] rfl (by norm_num) (by norm_num)⟩

/-- C10: for every parameter histogram of a constructed conditional model
(non-negative values, non-empty edge list) there is a uniform draw — exactly
0, which `np.random.rand` can produce — for which ITS computes bin index
`searchsorted(cdf, 0) - 1 = -1` and, through the negative-indexing
convention, returns the LAST stored bin upper edge for that parameter,
regardless of the histogram contents. -/
theorem c10_its_zero_draw (values edges : List ℚ)
    (_h0 : ∀ v ∈ values, 0 ≤ v) (he : edges ≠ []) :
    (searchsorted (buildCDF values) 0 : ℤ) - 1 = -1 ∧
      ITS1 (buildCDF values) edges 0 = edges.getLast he := by
  have hss : searchsorted (buildCDF values) 0 = 0 := by
    rw [buildCDF_eq]
    have hcons : (((0 : ℚ) :: cumsum 0 values)
          ++ [((0 : ℚ) :: cumsum 0 values).getLastD 0]).map (fun a => a / values.sum)
        = (0 / values.sum)
          :: ((cumsum 0 values ++ [((0 : ℚ) :: cumsum 0 values).getLastD 0]).map
              (fun a => a / values.sum)) := by
      rw [List.cons_append, List.map_cons]
    rw [hcons, searchsorted, List.takeWhile_cons]
    have : decide ((0 : ℚ) / values.sum < 0) = false := by
      rw [zero_div]
      simp
    rw [this]
    rfl
  constructor
  · rw [hss]
    rfl
  · rw [ITS1, hss]
    show npGet edges (-1) = edges.getLast he
    rw [npGet, if_neg (by omega)]
    have hlen : 1 ≤ edges.length := by
      rcases edges with _ | ⟨a, r⟩
      · exact absurd rfl he
      · simp
    rw [show ((-(-1 : ℤ)).toNat) = 1 from rfl]
    rw [List.getD_eq_getElem?_getD, List.getElem?_eq_getElem (by omega),
      List.getLast_eq_getElem]
    rfl

/-- Witness for C10 at the concrete histogram values `[1, 1]`, stored upper
edges `[1, 2]`: the zero draw returns the last edge 2. -/
theorem c10_witness :
    ((∀ v ∈ ([1, 1] : List ℚ), 0 ≤ v) ∧ (([1, 2] : List ℚ) ≠ [])) ∧
    ((searchsorted (buildCDF [1, 1]) 0 : ℤ) - 1 = -1 ∧
      ITS1 (buildCDF [1, 1]) [1, 2] 0 = 2) := by
  have h := c10_its_zero_draw [1, 1] [1, 2] (by norm_num) (by simp)
  exact ⟨⟨by norm_num, by simp⟩, h.1, h.2.trans (by norm_num)⟩

/-! ## Construction-time checks (MADE.__init__, src lines 35-55;
MADE.build, src lines 61-66; MAFlowModel.__init__, src lines 213-230)

The supplied `random_nums` is modelled as a (possibly ragged) list of rows of
naturals; `np.array(random_nums).shape == (num_layers, num_nodes)` holds
exactly when there are `num_layers` rows, all of length `num_nodes` (a ragged
list yields a 1-tuple shape, never equal to a 2-tuple).  Exceptions are
modelled with `Except`; the stored state that matters to the claims is the
kept `nums` (empty means "generate internally at build time") and whether the
mismatch warning was printed. -/

/-- Whether `np.array(rn).shape == (r, c)` for a nested list `rn`. -/
def shapeMatches (rn : List (List ℕ)) (r c : ℕ) : Bool :=
  rn.length == r && rn.all (fun row => row.length == c)

/-- The activation whitelist of src line 50. -/
def validActivation (a : String) : Bool :=
  a == "relu" || a == "tanh" || a == "sigmoid" || a == "linear"

structure MADEInitResult where
  nums : List (List ℕ)
  warned : Bool
deriving DecidableEq

/-- MADE.__init__ (src lines 35-55): raise if `in_shape < 2`; if the supplied
`random_nums` is non-empty but its shape is not `(num_layers, num_nodes)`,
print a warning and reset the stored `nums` to `[]`; then raise if the
activation is not in the whitelist. -/
def madeInit (in_shape num_layers num_nodes : ℕ) (activation : String)
    (random_nums : List (List ℕ)) : Except String MADEInitResult :=
  if in_shape < 2 then
    Except.error "MADE Layer only supports at least two inputs."
  else
    let mismatch := !shapeMatches random_nums num_layers num_nodes
      && !(random_nums == [])
    let nums := if mismatch then [] else random_nums
    if !validActivation activation then
      Except.error "Activation function must be linear, relu, tanh or sigmoid."
    else
      Except.ok ⟨nums, mismatch⟩

/-- MADE.build order-assignment generation (src lines 61-66): when the stored
`nums` is empty, use fresh rng draws if `in_shape > 2` and an all-ones matrix
if `in_shape == 2`; otherwise keep the stored `nums`.  The rng draws are
abstracted as the argument `draws`. -/
def madeBuildNums (in_shape num_layers num_nodes : ℕ)
    (stored : List (List ℕ)) (draws : List (List ℕ)) : List (List ℕ) :=
  if stored.length = 0 then
    (if 2 < in_shape then draws
      else List.replicate num_layers (List.replicate num_nodes 1))
  else stored

/-- C9: MADE construction fails fatally when `in_shape < 2` or when the
output activation is outside relu/tanh/sigmoid/linear, but a non-empty
`random_nums` of the wrong shape is non-fatal: construction succeeds with the
warning flag set and the stored order assignments reset to `[]`, so that the
build step generates internal order assignments (rng draws for `in_shape > 2`,
all ones for `in_shape = 2`) instead of the supplied ones. -/
theorem c9_made_init_behaviour :
    (∀ (in_shape L W : ℕ) (act : String) (rn : List (List ℕ)),
      in_shape < 2 →
        madeInit in_shape L W act rn
          = Except.error "MADE Layer only supports at least two inputs.") ∧
    (∀ (in_shape L W : ℕ) (act : String) (rn : List (List ℕ)),
      2 ≤ in_shape → validActivation act = false →
        madeInit in_shape L W act rn
          = Except.error "Activation function must be linear, relu, tanh or sigmoid.") ∧
    (∀ (in_shape L W : ℕ) (act : String) (rn draws : List (List ℕ)),
      2 ≤ in_shape → validActivation act = true → rn ≠ [] →
      shapeMatches rn L W = false →
        madeInit in_shape L W act rn = Except.ok ⟨[], true⟩ ∧
        madeBuildNums in_shape L W [] draws
          = (if 2 < in_shape then draws
              else List.replicate L (List.replicate W 1))) := by
  refine ⟨?_, ?_, ?_⟩
  · intro in_shape L W act rn h
    rw [madeInit, if_pos h]
  · intro in_shape L W act rn h hact
    rw [madeInit, if_neg (by omega)]
    simp only [hact, Bool.not_false, if_pos]
  · intro in_shape L W act rn draws h hact hrn hshape
    constructor
    · rw [madeInit, if_neg (by omega)]
      have hmismatch : (!shapeMatches rn L W && !(rn == [])) = true := by
        rw [hshape]
        simp [hrn]
      simp only [hmismatch, if_pos, hact, Bool.not_true, Bool.false_eq_true,
        if_false]
    · simp [madeBuildNums]

/-- Witness for C9: all three branches at concrete inputs — `in_shape = 1`
fails, a bad activation string fails, and a wrong-shaped `random_nums`
(one row of length 1 against `(1, 2)`) succeeds with a warning and empty
stored order assignments. -/
theorem c9_witness :
    (madeInit 1 1 2 "relu" []
        = Except.error "MADE Layer only supports at least two inputs.") ∧
    (madeInit 2 1 2 "softmax" []
        = Except.error "Activation function must be linear, relu, tanh or sigmoid.") ∧
    (madeInit 2 1 2 "relu" [[5]] = Except.ok ⟨[], true⟩ ∧
      madeBuildNums 2 1 2 [] [[7, 7]]
        = (if 2 < 2 then [[7, 7]] else List.replicate 1 (List.replicate 2 1))) :=
  ⟨c9_made_init_behaviour.1 1 1 2 "relu" [] (by omega),
    c9_made_init_behaviour.2.1 2 1 2 "softmax" [] (by omega) (by decide),
    c9_made_init_behaviour.2.2 2 1 2 "relu" [[5]] [[7, 7]] (by omega)
      (by decide) (by decide) (by decide)⟩

/-- MAFlowModel.__init__ (src lines 213-230): the body performs NO validation
of a supplied `permutations` argument — it is stored as given (when `None` is
supplied the model generates `n_coupling - 1` random permutations instead,
randomness abstracted away here).  The only exception reachable during
construction comes from the MADE layers built through `MACoupling`
(`in_shape < 2`; the hard-wired activation list `["tanh", "linear"]` always
passes both the `MACoupling` length check and the MADE whitelist). -/
def flowInit (n_coupling in_shape : ℕ)
    (permutations : Option (List (List ℕ))) :
    Except String (Option (List (List ℕ))) :=
  let _ := n_coupling
  if in_shape < 2 then
    Except.error "MADE Layer only supports at least two inputs."
  else
    Except.ok permutations

/-- C3 counterexample: constructing an MAFlowModel with `n_coupling = 2`,
`in_shape = 2` and the supplied permutations `[[0]]` — whose shape `(1, 1)`
is NOT the required `(n_coupling - 1, in_shape) = (1, 2)` — does not raise:
construction succeeds and stores the wrong-shaped list unchanged. -/
theorem c3_counterexample :
    shapeMatches [[0]] (2 - 1) 2 = false ∧
      flowInit 2 2 (some [[0]]) = Except.ok (some [[0]]) :=
  ⟨by decide, rfl⟩

/-- C3 (amended): construction of an MAFlowModel never validates the shape of
an explicitly supplied permutations list; whenever `in_shape ≥ 2` (so that
the unrelated MADE check passes) construction succeeds and stores the
supplied permutations as-is, whatever their shape. -/
theorem c3_perm_shape_unchecked (n_coupling in_shape : ℕ)
    (perms : List (List ℕ)) (h : 2 ≤ in_shape) :
    flowInit n_coupling in_shape (some perms) = Except.ok (some perms) := by
  rw [flowInit, if_neg (by omega)]

/-- Witness for C3 (amended) at the counterexample input. -/
theorem c3_witness :
    2 ≤ 2 ∧ flowInit 2 2 (some [[0]]) = Except.ok (some [[0]]) :=
  ⟨by omega, c3_perm_shape_unchecked 2 2 [[0]] (by omega)⟩

end MANF
